import Mathlib

/-!
# Verification of the NEAR shielded-pool specification against its source

This development shallowly embeds the parts of the `NEAR-pool` repository that
the specification's claims are about:

* the on-chain pool state machine (`src/pool-contract/src/lib.rs`),
* the compressed note codec and note encryption (`src/pool-crypto/src/native/tx.rs`),
* the transfer-circuit constraint semantics (`src/pool-crypto/src/circuit/tx.rs`),
* the client transaction builder (`src/pool-crypto/src/native/data.rs`).

External primitives consumed by the repository (the NEAR host's Keccak-256 and
alt_bn128 precompiles, and the `fawkes_crypto` Poseidon / Jubjub layer) are not
part of the repository's sources; following the specification they are treated
as opaque parameters, or modelled from the specification's own description where
a definition is needed (such definitions carry a `Modelled from the spec:`
comment).  Machine integers are modelled as `Nat`/`Int`; a Rust `panic`
(`env::panic`, `assert!`, `unwrap`) is modelled as an `Except`/`Option` failure,
which matches the all-or-nothing transaction semantics of the host.
-/

/-! ## Little-endian byte strings

`Num<Fr>` and `U256` values are (de)serialized by the repository as fixed-width
little-endian byte strings (borsh).  We model a byte as a `Nat` (< 256) and a
byte string as a `List Nat`. -/
/-- Little-endian value of a byte string: `bytesToNatLE [b0, b1, ...] = b0 + 256*b1 + ...`. -/
def bytesToNatLE (bs : List Nat) : Nat :=
  bs.foldr (fun b acc => b + 256 * acc) 0


/-- The `len`-byte little-endian encoding of `n` (the low `8*len` bits of `n`). -/
def natToBytesLE (len n : Nat) : List Nat :=
  (List.range len).map fun i => n / 256 ^ i % 256


/-! ## The on-chain pool state machine (`src/pool-contract/src/lib.rs`)

`U256` values are modelled as `Nat` (the contract never does arithmetic on
them beyond equality and the borsh little-endian decoding).  NEAR's
`UnorderedSet` keeps its elements in an insertion-ordered backing vector and
`insert` appends the element only when it is not yet present; we model it as a
duplicate-free `List Nat` in insertion order.  `env::panic` aborts the NEAR
transaction with a reason string and rolls every state write back; a call is
therefore modelled as a pure function into `Except String PoolState`.

The two Groth16 verifications call the host's alt_bn128 precompiles, which are
external to the repository; they are passed in as opaque boolean functions of
the public-input vector, as is the host's `keccak256`. -/
/-- `UTXO_IN` from `src/pool-contract/src/lib.rs`. -/
def UTXO_IN : Nat := 6


/-- `UTXO_OUT` from `src/pool-contract/src/lib.rs`. -/
def UTXO_OUT : Nat := 2


/-- `is_unique` from `src/pool-contract/src/lib.rs`: sort the items and check
that no two adjacent sorted items are equal.  (Rust's stable `sort` is
modelled by insertion sort, which computes the same sorted list.) -/
def isUnique (items : List Nat) : Bool :=
  let v := List.insertionSort (· ≤ ·) items
  (v.zip v.tail).all fun p => p.1 != p.2


/-- The `TransferAndUpdateRoot` argument object (`txobj`) of
`transfer_and_update_root`.  The fixed-length arrays `[U256; UTXO_IN]` and
`[U256; UTXO_OUT]` are modelled as lists; theorems that need the production
shape carry explicit length hypotheses. -/
structure TxObj where
  root : Nat
  nullifier : List Nat
  out_hash : List Nat
  delta : Nat
  memo : Nat
  message : List Nat
  before_root : Nat
  after_root : Nat
deriving DecidableEq, Repr


/-- `TransferAndUpdateRoot::input_vec_transfer`. -/
def inputVecTransfer (t : TxObj) : List Nat :=
  t.root :: (t.nullifier ++ t.out_hash ++ [t.delta, t.memo])


/-- `TransferAndUpdateRoot::input_vec_update_root` (the position argument is
`num_tx * UTXO_OUT` at the call site). -/
def inputVecUpdateRoot (t : TxObj) (pos : Nat) : List Nat :=
  t.before_root :: t.after_root :: pos :: t.out_hash


/-- The persistent fields of `PrivateTxEngine`.  The two verifying keys are
folded into the opaque verifier functions passed to `transferAndUpdateRoot`. -/
structure PoolState where
  nullifier : List Nat
  root_history : List Nat
  utxo : List Nat
  message : List (List Nat)
deriving DecidableEq, Repr


/-- `UnorderedSet::insert`: append the element to the backing vector iff it is
not already present. -/
def setInsert (s : List Nat) (x : Nat) : List Nat :=
  if x ∈ s then s else s ++ [x]


/-- Insert every element of `xs` in order (the `for e in ... { set.insert(e) }`
loops of step 10). -/
def setInsertAll (s : List Nat) (xs : List Nat) : List Nat :=
  xs.foldl setInsert s


/-- `num_tx`: `root_history.len() - 1` on a `u64`.  The NEAR contract build
checks arithmetic overflow, so the subtraction aborts when `root_history` is
empty; this is modelled as `none`. -/
def numTx (st : PoolState) : Option Nat :=
  if st.root_history.length = 0 then none else some (st.root_history.length - 1)


/-- `current_root`: index `num_tx` of the backing vector of `root_history`
(aborting with "vector index overflow" when absent, modelled as `none`). -/
def currentRoot (st : PoolState) : Option Nat :=
  match numTx st with
  | none => none
  | some k => st.root_history.get? k


/-- `U256::try_from_slice` on the 32-byte keccak digest: borsh reads exactly 32
little-endian bytes. -/
def u256FromSlice (bs : List Nat) : Option Nat :=
  if bs.length = 32 then some (bytesToNatLE bs) else none


/-- The commit block (step 10) of `transfer_and_update_root`: insert all
nullifiers, insert all output commitments, push the message, insert the new
root. -/
def commitState (st : PoolState) (t : TxObj) : PoolState :=
  { nullifier := setInsertAll st.nullifier t.nullifier
    utxo := setInsertAll st.utxo t.out_hash
    message := st.message ++ [t.message]
    root_history := setInsert st.root_history t.after_root }


/-- `transfer_and_update_root` from `src/pool-contract/src/lib.rs`.
`vtx`/`vur` are the two `alt_bn128_groth16verify` calls (with the verifying
keys baked in) and `kec` is the host's `env::keccak256`; each `env::panic` is
an `Except.error` carrying the contract's reason string. -/
def transferAndUpdateRoot (st : PoolState) (t : TxObj)
    (vtx vur : List Nat → Bool) (kec : List Nat → List Nat) :
    Except String PoolState :=
  if !isUnique t.nullifier then
    .error "not unique nullifier in transaction"
  else if !isUnique t.out_hash then
    .error "not unique utxo in transaction"
  else if t.nullifier.any fun e => st.nullifier.contains e then
    .error "not unique nullifier in history"
  else if t.out_hash.any fun e => st.utxo.contains e then
    .error "not unique utxo in history"
  else if !st.root_history.contains t.root then
    .error "no root in history"
  else match u256FromSlice (kec t.message) with
  | none => .error "cannot deserialize keccak digest"
  | some h =>
    if t.memo ≠ h then
      .error "wrong memo hash"
    else match currentRoot st, numTx st with
    | some cr, some n =>
      if cr ≠ t.before_root then
        .error "wrong current root"
      else if !vtx (inputVecTransfer t) then
        .error "wrong transfer snark check"
      else if !vur (inputVecUpdateRoot t (n * UTXO_OUT)) then
        .error "wrong update root snark check"
      else .ok (commitState st t)
    | _, _ => .error "vector index overflow"


/-- All nine acceptance checks of `transfer_and_update_root` in one boolean:
pairwise distinctness of the nullifiers and commitments, freshness against the
history sets, root membership, the memo-hash equality, the `before_root`
equality against `current_root`, and the two Groth16 verifications. -/
def allChecksPass (st : PoolState) (t : TxObj)
    (vtx vur : List Nat → Bool) (kec : List Nat → List Nat) : Bool :=
  isUnique t.nullifier &&
  isUnique t.out_hash &&
  !(t.nullifier.any fun e => st.nullifier.contains e) &&
  !(t.out_hash.any fun e => st.utxo.contains e) &&
  st.root_history.contains t.root &&
  (u256FromSlice (kec t.message) == some t.memo) &&
  (currentRoot st == some t.before_root) &&
  vtx (inputVecTransfer t) &&
  vur (inputVecUpdateRoot t ((st.root_history.length - 1) * UTXO_OUT))


/-- The BN254 scalar-field modulus `r` (the `Fr` of the circuit and the pool). -/
abbrev rFr : Nat :=
  21888242871839275222246405745257275088548364400416034343698204186575808495617


/-- The Keccak-256 digest of the empty byte string,
`c5d2460186f7233c927e7db2dcc703c0e500b653ca82273b7bfad8045d85a470`,
as the byte sequence returned by the host's `env::keccak256(&[])`. -/
def keccakEmptyDigest : List Nat :=
  [0xc5, 0xd2, 0x46, 0x01, 0x86, 0xf7, 0x23, 0x3c,
   0x92, 0x7e, 0x7d, 0xb2, 0xdc, 0xc7, 0x03, 0xc0,
   0xe5, 0x00, 0xb6, 0x53, 0xca, 0x82, 0x27, 0x3b,
   0x7b, 0xfa, 0xd8, 0x04, 0x5d, 0x85, 0xa4, 0x70]


/-! ## The compressed note codec (`src/pool-crypto/src/native/tx.rs`)

A `Note<Fr>` is four field elements `(d, pk_d, v, st)`; each is borsh-serialized
as its canonical value in `num_size = (254 - 1)/8 + 1 = 32` little-endian
bytes, and `to_compressed` then keeps only the first `NOTE_CHUNKS[i]` bytes of
each, failing if any of the dropped high bytes is nonzero.  Field elements are
modelled as `Nat` values `< rFr`. -/
/-- `NOTE_CHUNKS` from `src/pool-crypto/src/native/tx.rs`. -/
def NOTE_CHUNKS : List Nat := [10, 32, 8, 10]


/-- `num_size` for `Fr` (`NUM_BITS = 254`). -/
def numSize : Nat := 32


/-- A `Note<Fr>` with its four field elements as canonical `Nat` values. -/
structure NoteM where
  d : Nat
  pk_d : Nat
  v : Nat
  st : Nat
deriving DecidableEq, Repr


/-- Borsh serialization of one `Num<Fr>`: 32 little-endian bytes of the
canonical value. -/
def numToBytes (n : Nat) : List Nat := natToBytesLE numSize n


/-- Borsh deserialization of one `Num<Fr>`: read exactly 32 little-endian
bytes and require a canonical (`< r`) value. -/
def numFromBytes (bs : List Nat) : Option Nat :=
  if bs.length = numSize then
    if bytesToNatLE bs < rFr then some (bytesToNatLE bs) else none
  else none


/-- The per-chunk loop of `to_compressed`: for each chunk width `c`, fail if
any of the bytes `buf[num_size*i + c .. num_size*(i+1)]` is nonzero, else keep
`buf[num_size*i .. num_size*i + c]`. -/
def toCompressedAux : List Nat → List Nat → Option (List Nat)
  | [], _ => some []
  | c :: cs, buf =>
      if ((buf.take numSize).drop c).any (fun b => b != 0) then none
      else (toCompressedAux cs (buf.drop numSize)).map (fun rest => buf.take c ++ rest)


/-- `to_compressed` from `src/pool-crypto/src/native/tx.rs` (with its length
precondition `buf_len % num_size == 0 && buf_len / num_size == chunks_len`). -/
def toCompressed (chunks buf : List Nat) : Option (List Nat) :=
  if buf.length % numSize = 0 ∧ buf.length / numSize = chunks.length then
    toCompressedAux chunks buf
  else none


/-- The per-chunk loop of `to_decompressed`: zero-extend each `c`-byte chunk
back to `num_size` bytes. -/
def toDecompressedAux : List Nat → List Nat → List Nat
  | [], _ => []
  | c :: cs, buf =>
      (buf.take c ++ List.replicate (numSize - c) 0) ++ toDecompressedAux cs (buf.drop c)


/-- `to_decompressed` from `src/pool-crypto/src/native/tx.rs` (with its length
precondition `buf_len == chunks.sum`). -/
def toDecompressed (chunks buf : List Nat) : Option (List Nat) :=
  if buf.length = chunks.sum then some (toDecompressedAux chunks buf) else none


/-- `BorshSerialize for Note`: serialize the four field elements into a
128-byte buffer and compress it along `NOTE_CHUNKS`. -/
def noteToBytes (n : NoteM) : Option (List Nat) :=
  toCompressed NOTE_CHUNKS (numToBytes n.d ++ numToBytes n.pk_d ++ numToBytes n.v ++ numToBytes n.st)


/-- `BorshDeserialize for Note`: require at least 60 bytes, zero-extend the
four chunks and parse the four field elements. -/
def noteFromBytes (buf : List Nat) : Option NoteM :=
  if buf.length < NOTE_CHUNKS.sum then none
  else
    (toDecompressed NOTE_CHUNKS (buf.take NOTE_CHUNKS.sum)).bind fun data =>
      match numFromBytes (data.take 32), numFromBytes ((data.drop 32).take 32),
            numFromBytes ((data.drop 64).take 32), numFromBytes ((data.drop 96).take 32) with
      | some d, some pk, some v, some s => some ⟨d, pk, v, s⟩
      | _, _, _, _ => none


/-! ## Transfer-circuit constraint semantics (`src/pool-crypto/src/circuit/tx.rs`)

The circuit functions build R1CS constraints over the field `CS::F`; we embed
each constraint by its satisfaction condition on the signal values.  The
circuit is generic over a prime field, so the membership constraint is stated
over an arbitrary `Field F`; the Poseidon compression is an opaque binary
function. -/
instance : NeZero rFr := ⟨by decide⟩


instance : Fact (Nat.Prime 5) := ⟨by norm_num⟩


/-- Modelled from the spec: `c_poseidon_merkle_proof_root` of the external
`fawkes_crypto` layer — Merkle-path root reconstruction given leaf, sibling
vector and directional bits (§4.A): at each level the current node is hashed
as the right child when the path bit is set, else as the left child. -/
def merkleProofRoot {F : Type} (compress : F → F → F) (leaf : F)
    (proof : List (F × Bool)) : F :=
  proof.foldl (fun cur sb => if sb.2 then compress sb.1 cur else compress cur sb.1) leaf


/-- The per-input membership constraint of `c_transfer`
(`((cur_root - &p.root) * &s.tx.input[i].v).assert_zero()`). -/
def membershipConstraint {F : Type} [Field F] (compress : F → F → F)
    (root noteHash v : F) (proof : List (F × Bool)) : Prop :=
  (merkleProofRoot compress noteHash proof - root) * v = 0


/-- `parse_delta` from `src/pool-crypto/src/native/tx.rs`: panics
(`assert!(delta_num < limit_amount)`, modelled `none`) unless the field value
is below `2^64`; returns `delta` below `2^63` and `delta − 2^64` (in `Fr`)
otherwise. -/
def parse_delta (delta : ZMod rFr) : Option (ZMod rFr) :=
  if delta.val < 2 ^ 64 then
    some (if delta.val < 2 ^ 63 then delta else delta - (2 ^ 64 : ZMod rFr))
  else none


/-- `c_parse_delta` from `src/pool-crypto/src/circuit/tx.rs`:
`c_into_bits_le(delta, 64)` is satisfiable only for values below `2^64`
(modelled `none`), and the result signal is `delta - bits[63] * 2^64`. -/
def c_parse_delta (delta : ZMod rFr) : Option (ZMod rFr) :=
  if delta.val < 2 ^ 64 then
    some (delta - ((delta.val / 2 ^ 63 % 2 : Nat) : ZMod rFr) * (2 ^ 64 : ZMod rFr))
  else none


/-! ## The client transaction builder (`src/pool-crypto/src/native/data.rs`)

`make_transaction_object` is embedded with the production shape `IN = 6`,
`OUT = 2`.  Randomness (`rng`) is supplied as explicit fresh values and
streams; `derive_key_pk_d` is an opaque function of the diversifier (the
client's `dk` is folded in).  The encrypted `assets`/`memo`, Merkle proofs and
the EdDSA signature of the returned object are built from opaque primitives
only and do not constrain this claim; the embedding returns the transaction's
input and output notes.  Rust `BigUint` subtractions panic on underflow and
`prepare_delta` panics outside `[-2^64, 2^64)`; panics are the outer `none`,
while the builder's own `None` (insufficient funds) is `some none`. -/
/-- `note.sort_by(|a, b| b.2.partial_cmp(&a.2))`: the owned notes as
`(position, note, value)` triples, stably sorted by descending value
(insertion sort computes Rust's stable sort). -/
def sortNotesDesc (notes : List (Nat × NoteM)) : List (Nat × NoteM × Nat) :=
  List.insertionSort (fun a b => b.2.2 ≤ a.2.2) (notes.map fun e => (e.1, e.2, e.2.v))


/-- The values of the sorted notes. -/
def sortedValues (notes : List (Nat × NoteM)) : List Nat :=
  (sortNotesDesc notes).map fun e => e.2.2


/-- `spending_amount` before the delta adjustment: the sum of the top `IN`
values. -/
def sumTopValues (notes : List (Nat × NoteM)) : Nat :=
  (((sortNotesDesc notes).take UTXO_IN).map fun e => e.2.2).sum


/-- Rust `&a - &b` on `BigUint`: panics (`none`) on underflow. -/
def checkedSub (a b : Nat) : Option Nat :=
  if b ≤ a then some (a - b) else none


/-- The greedy downsizing loop of `make_transaction_object` (entered only when
there are more than `IN` owned notes): at iteration `i` it tries to swap the
selected position `i1 = IN - i - 1` for the small position
`i2 = note_len - i - 1`, keeping `spending - (v[i1] - v[i2]) ≥ amount`.
`fuel` counts the remaining iterations (`fuel + i = IN`). -/
def downsizeLoop (vs : List Nat) (amount noteLen : Nat) :
    Nat → Nat → Nat → List Nat → Option (Nat × List Nat)
  | 0, _, spending, indexes => some (spending, indexes)
  | fuel + 1, i, spending, indexes =>
      match checkedSub (vs.getD (UTXO_IN - i - 1) 0) (vs.getD (noteLen - i - 1) 0) with
      | none => none
      | some dlt =>
          match checkedSub spending dlt with
          | none => none
          | some s' =>
              if s' < amount then some (spending, indexes)
              else downsizeLoop vs amount noteLen fuel (i + 1) s'
                (indexes.set (UTXO_IN - i - 1) (noteLen - i - 1))


/-- `prepare_delta` from `src/pool-crypto/src/native/data.rs`: negative deltas
are shifted by `2^64`; values outside `[0, 2^64)` hit the `assert!` (`none`). -/
def prepare_delta (delta : Int) : Option Nat :=
  let adjusted := if delta < 0 then delta + 2 ^ 64 else delta
  if 0 ≤ adjusted ∧ adjusted < 2 ^ 64 then some adjusted.toNat else none


/-- The input/output notes of the transaction object built by
`make_transaction_object`. -/
structure TxBuilt where
  input : List NoteM
  output : List NoteM
deriving DecidableEq, Repr


/-- `make_transaction_object` from `src/pool-crypto/src/native/data.rs`
(production shape `IN = 6`, `OUT = 2`, so there are no padding outputs).
Outer `none` = panic, `some none` = the builder's `None` (insufficient
funds). -/
def makeTransactionObject (notes : List (Nat × NoteM)) (amount : Nat) (delta : Int)
    (senderD senderSt recvSt : Nat) (recvAddr : Nat × Nat)
    (padD padPk padSt : Nat → Nat) (derivePkd : Nat → Nat) :
    Option (Option TxBuilt) :=
  if (sumTopValues notes : Int) + delta < 0 then some none
  else if ((sumTopValues notes : Int) + delta).toNat < amount then some none
  else
    match (if UTXO_IN < (sortNotesDesc notes).length then
            downsizeLoop (sortedValues notes) amount (sortNotesDesc notes).length
              UTXO_IN 0 ((sumTopValues notes : Int) + delta).toNat
              (List.range (min UTXO_IN (sortNotesDesc notes).length))
          else
            some (((sumTopValues notes : Int) + delta).toNat,
              List.range (min UTXO_IN (sortNotesDesc notes).length))) with
    | none => none
    | some (spending, indexes) =>
        match prepare_delta delta with
        | none => none
        | some _ =>
            some (some
              { input := (indexes.map fun i =>
                    ((sortNotesDesc notes).getD i (0, ⟨0, 0, 0, 0⟩, 0)).2.1)
                  ++ ((List.range (UTXO_IN - indexes.length)).map fun j =>
                    (⟨padD j, padPk j, 0, padSt j⟩ : NoteM))
                output := [⟨senderD, derivePkd senderD, spending - amount, senderSt⟩,
                           ⟨recvAddr.1, recvAddr.2, amount, recvSt⟩] })


/-- The sum of `vs`-values at the positions of `idx` (as integers). -/
def idxSum (vs : List Nat) (idx : List Nat) : Int :=
  (idx.map fun j => ((vs.getD j 0 : Nat) : Int)).sum


/-! ## Note encryption (`src/pool-crypto/src/native/tx.rs`)

The Jubjub layer is external (`fawkes_crypto`); following the specification the
prime-order subgroup is modelled as the cyclic group of its order `qJub`
(points are written by their discrete logarithm, so the x-coordinate
"compression" is the canonical value and subgroup decompression is its partial
inverse), scalar multiplication is multiplication in `ZMod qJub`, and the
diversifier hash `H(d) = FromScalar(Poseidon(d; DIVERSIFIER))` and Keccak-256
are opaque.  The scalar-field inversion `dk.inverse()` is likewise external
and is supplied as an explicit inverse `dkInv` with `dk * dkInv = 1`. -/
/-- Modelled from the spec: the order of the prime-order subgroup of the
Jubjub-like curve embedded in BN254 (`Fs`, strictly smaller than `Fr`). -/
abbrev qJub : Nat :=
  2736030358979909402780800718157159386076813972158567259200215660948447373041


instance : NeZero qJub := ⟨by decide⟩


/-- Modelled from the spec: a point of the prime-order Jubjub subgroup,
represented in the cyclic group `ZMod qJub`. -/
abbrev JubPoint := ZMod qJub


/-- Modelled from the spec: Jubjub scalar multiplication (`EdwardsPoint::mul`
restricted to the prime-order subgroup). -/
def pointMul (s : ZMod qJub) (p : JubPoint) : JubPoint := s * p


/-- Modelled from the spec: the compressed x-coordinate of a subgroup point,
as the `Fr`-value stored in notes and messages. -/
def pointX (p : JubPoint) : Nat := ZMod.val p


/-- Modelled from the spec: `EdwardsPoint::subgroup_decompress`, the partial
inverse of the compression. -/
def subgroupDecompress (x : Nat) : Option JubPoint :=
  if x < qJub then some ((x : Nat) : ZMod qJub) else none


/-- `xor_crypt` from `src/pool-crypto/src/native/tx.rs`: extend the keyed
Keccak stream one 32-byte block per started block of `data`, then XOR. -/
def xorCrypt (maskBlock : Nat → List Nat) (data : List Nat) : List Nat :=
  List.zipWith (fun d m => d ^^^ m)
    data (((List.range ((data.length - 1) / 32 + 1)).map maskBlock).flatten)


/-- `dh_prefix` followed by the per-block update of `xor_crypt`: block `i` of
the mask is `keccak256(dh.x ‖ note_hash ‖ [i as u8])`. -/
def dhPrefixMask (kec : List Nat → List Nat) (dhx : Nat) (h : List Nat)
    (i : Nat) : List Nat :=
  kec (natToBytesLE numSize dhx ++ h ++ [i % 256])


/-- `note_encrypt` from `src/pool-crypto/src/native/tx.rs`: the two `unwrap`s
(subgroup decompression of `note.pk_d` and note serialization) are the `none`
cases; the output is `epk.x ‖ epk2.x ‖ keccak256(note_bytes) ‖ ciphertext`
with `epk = esk·H(d)`, `epk2 = (esk·pk_d)·dk⁻¹`. -/
def note_encrypt (kec : List Nat → List Nat) (Hd : Nat → JubPoint)
    (esk dk dkInv : ZMod qJub) (note : NoteM) : Option (List Nat) :=
  match subgroupDecompress note.pk_d, noteToBytes note with
  | some pk_d, some noteVec =>
      some (natToBytesLE numSize (pointX (pointMul esk (Hd note.d)))
        ++ (natToBytesLE numSize (pointX (pointMul dkInv (pointMul esk pk_d)))
        ++ (kec noteVec
        ++ xorCrypt (dhPrefixMask kec (pointX (pointMul esk pk_d)) (kec noteVec)) noteVec)))
  | _, _ => none


/-- `note_decrypt` from `src/pool-crypto/src/native/tx.rs`: decompress the
ephemeral key, recover the Diffie–Hellman point, XOR-decrypt, and accept only
if the keccak hash of the plaintext matches the carried hash. -/
def note_decrypt (kec : List Nat → List Nat) (dk : ZMod qJub)
    (epkX : Nat) (noteData : List Nat) : Option NoteM :=
  match subgroupDecompress epkX with
  | none => none
  | some epk =>
      if ((noteData.take 32).zip (kec (xorCrypt
            (dhPrefixMask kec (pointX (pointMul dk epk)) (noteData.take 32))
            (noteData.drop 32)))).any (fun p => p.1 != p.2) then none
      else noteFromBytes (xorCrypt
        (dhPrefixMask kec (pointX (pointMul dk epk)) (noteData.take 32))
        (noteData.drop 32))


/-- `note_decrypt_in`: the receiver parses `epk1` from the first 32 bytes. -/
def note_decrypt_in (kec : List Nat → List Nat) (dk : ZMod qJub)
    (msg : List Nat) : Option NoteM :=
  if msg.length ≠ 32 + 2 * numSize + 60 then none
  else match numFromBytes (msg.take numSize) with
  | none => none
  | some epkX => note_decrypt kec dk epkX (msg.drop (2 * numSize))


/-- `note_decrypt_out`: the sender parses `epk2` from the second 32 bytes. -/
def note_decrypt_out (kec : List Nat → List Nat) (dk : ZMod qJub)
    (msg : List Nat) : Option NoteM :=
  if msg.length ≠ 32 + 2 * numSize + 60 then none
  else match numFromBytes ((msg.drop numSize).take numSize) with
  | none => none
  | some epkX => note_decrypt kec dk epkX (msg.drop (2 * numSize))


@[simp] theorem natToBytesLE_length (len n : Nat) : (natToBytesLE len n).length = len := by
  simp [natToBytesLE]


theorem bytesToNatLE_cons (b : Nat) (bs : List Nat) :
    bytesToNatLE (b :: bs) = b + 256 * bytesToNatLE bs := rfl


theorem natToBytesLE_succ (len n : Nat) :
    natToBytesLE (len + 1) n = n % 256 :: natToBytesLE len (n / 256) := by
  unfold natToBytesLE
  rw [List.range_succ_eq_map]
  simp only [List.map_cons, List.map_map, Function.comp_def, pow_zero, Nat.div_one]
  congr 1
  apply List.map_congr_left
  intro i _
  rw [Nat.div_div_eq_div_mul, ← pow_succ']


/-- Round trip: decoding the `len`-byte little-endian encoding of `n` gives `n mod 256^len`. -/
theorem bytesToNatLE_natToBytesLE (len n : Nat) :
    bytesToNatLE (natToBytesLE len n) = n % 256 ^ len := by
  induction len generalizing n with
  | zero => simp [natToBytesLE, bytesToNatLE, Nat.mod_one]
  | succ k ih =>
      rw [natToBytesLE_succ, bytesToNatLE_cons, ih, pow_succ', Nat.mod_mul]


theorem bytesToNatLE_natToBytesLE_of_lt {len n : Nat} (h : n < 256 ^ len) :
    bytesToNatLE (natToBytesLE len n) = n := by
  rw [bytesToNatLE_natToBytesLE, Nat.mod_eq_of_lt h]


theorem mem_setInsert {s : List Nat} {x y : Nat} :
    y ∈ setInsert s x ↔ y ∈ s ∨ y = x := by
  unfold setInsert
  split <;> rename_i hx
  · constructor
    · exact Or.inl
    · rintro (h | rfl) <;> [exact h; exact hx]
  · simp


theorem mem_setInsertAll_left {s : List Nat} {xs : List Nat} {x : Nat}
    (h : x ∈ s) : x ∈ setInsertAll s xs := by
  induction xs generalizing s with
  | nil => exact h
  | cons a xs ih => exact ih (mem_setInsert.mpr (Or.inl h))


theorem mem_setInsertAll {s : List Nat} {xs : List Nat} {x : Nat}
    (h : x ∈ xs) : x ∈ setInsertAll s xs := by
  induction xs generalizing s with
  | nil => cases h
  | cons a xs ih =>
      show x ∈ setInsertAll (setInsert s a) xs
      rcases List.mem_cons.mp h with rfl | h
      · exact mem_setInsertAll_left (mem_setInsert.mpr (Or.inr rfl))
      · exact ih h


theorem length_setInsert_of_not_mem {s : List Nat} {x : Nat} (h : x ∉ s) :
    (setInsert s x).length = s.length + 1 := by
  simp [setInsert, h]


theorem setInsert_of_mem {s : List Nat} {x : Nat} (h : x ∈ s) :
    setInsert s x = s := by
  simp [setInsert, h]


/-- Characterization of the only success path of `transfer_and_update_root`:
the call returns `ok` exactly when every acceptance check passes, and then the
new state is the full commit. -/
theorem transfer_ok_iff (st : PoolState) (t : TxObj)
    (vtx vur : List Nat → Bool) (kec : List Nat → List Nat) (st' : PoolState) :
    transferAndUpdateRoot st t vtx vur kec = .ok st' ↔
      (allChecksPass st t vtx vur kec = true ∧ st' = commitState st t) := by
  have hnum : ∀ cr, currentRoot st = some cr →
      numTx st = some (st.root_history.length - 1) := by
    intro cr hcr
    by_cases h0 : st.root_history.length = 0
    · unfold currentRoot numTx at hcr
      rw [if_pos h0] at hcr
      simp at hcr
    · unfold numTx
      rw [if_neg h0]
  constructor
  · intro h
    unfold transferAndUpdateRoot at h
    unfold allChecksPass
    split at h; · cases h
    split at h; · cases h
    split at h; · cases h
    split at h; · cases h
    split at h; · cases h
    rename_i h1 h2 h3 h4 h5
    split at h
    · cases h
    · rename_i hm hkec
      split at h; · cases h
      rename_i hmemo
      split at h
      · rename_i cr n hcr hn
        split at h; · cases h
        split at h; · cases h
        split at h; · cases h
        rename_i hbr hvtx hvur
        cases h
        have hn' := hnum cr hcr
        rw [hn] at hn'
        cases hn'
        refine ⟨?_, rfl⟩
        have hcr' : currentRoot st = some t.before_root := by
          rw [hcr]; congr 1; omega
        simp_all
      · rename_i hbad
        cases h
  · rintro ⟨h, rfl⟩
    unfold allChecksPass at h
    simp only [Bool.and_eq_true, Bool.not_eq_true', beq_iff_eq] at h
    obtain ⟨⟨⟨⟨⟨⟨⟨⟨h1, h2⟩, h3⟩, h4⟩, h5⟩, h6⟩, h7⟩, h8⟩, h9⟩
      := h
    have hn : numTx st = some (st.root_history.length - 1) := hnum _ h7
    unfold transferAndUpdateRoot
    rw [h1, h2, h3, h4, h5, h6, h7, hn]
    simp [h8, h9]


/-- C1: for every pool state and call to `transfer_and_update_root`, either
every acceptance check passes and step 10 commits fully (all nullifiers
inserted, all commitments inserted, the message appended to the log, the
`after_root` inserted into `root_history`), or the call aborts and — since a
NEAR panic rolls back all writes, modelled by the `Except.error` result — no
field of the pool state changes. -/
theorem C1_transfer_atomic_commit_or_abort (st : PoolState) (t : TxObj)
    (vtx vur : List Nat → Bool) (kec : List Nat → List Nat) :
    (allChecksPass st t vtx vur kec = true →
       transferAndUpdateRoot st t vtx vur kec = .ok (commitState st t)
       ∧ (∀ x ∈ t.nullifier, x ∈ (commitState st t).nullifier)
       ∧ (∀ x ∈ t.out_hash, x ∈ (commitState st t).utxo)
       ∧ (commitState st t).message = st.message ++ [t.message]
       ∧ t.after_root ∈ (commitState st t).root_history)
    ∧ (allChecksPass st t vtx vur kec = false →
       ∃ e, transferAndUpdateRoot st t vtx vur kec = .error e) := by
  constructor
  · intro h
    refine ⟨(transfer_ok_iff st t vtx vur kec _).mpr ⟨h, rfl⟩, ?_, ?_, rfl, ?_⟩
    · intro x hx
      exact mem_setInsertAll hx
    · intro x hx
      exact mem_setInsertAll hx
    · exact mem_setInsert.mpr (Or.inr rfl)
  · intro h
    cases hres : transferAndUpdateRoot st t vtx vur kec with
    | error e => exact ⟨e, rfl⟩
    | ok st' =>
        have hch := ((transfer_ok_iff st t vtx vur kec st').mp hres).1
        rw [hch] at h
        cases h


/-- Witness for C1 at a concrete state and submission. -/
theorem C1_transfer_atomic_commit_or_abort_witness :
    (allChecksPass { nullifier := [], root_history := [0], utxo := [], message := [] }
        { root := 0, nullifier := [1, 2, 3, 4, 5, 6], out_hash := [11, 12], delta := 0,
          memo := 0, message := [], before_root := 0, after_root := 7 }
        (fun _ => true) (fun _ => true) (fun _ => List.replicate 32 0) = true →
       transferAndUpdateRoot { nullifier := [], root_history := [0], utxo := [], message := [] }
        { root := 0, nullifier := [1, 2, 3, 4, 5, 6], out_hash := [11, 12], delta := 0,
          memo := 0, message := [], before_root := 0, after_root := 7 }
        (fun _ => true) (fun _ => true) (fun _ => List.replicate 32 0)
        = .ok (commitState { nullifier := [], root_history := [0], utxo := [], message := [] }
          { root := 0, nullifier := [1, 2, 3, 4, 5, 6], out_hash := [11, 12], delta := 0,
            memo := 0, message := [], before_root := 0, after_root := 7 })
       ∧ (∀ x ∈ [1, 2, 3, 4, 5, 6],
            x ∈ (commitState { nullifier := [], root_history := [0], utxo := [], message := [] }
              { root := 0, nullifier := [1, 2, 3, 4, 5, 6], out_hash := [11, 12], delta := 0,
                memo := 0, message := [], before_root := 0, after_root := 7 }).nullifier)
       ∧ (∀ x ∈ [11, 12],
            x ∈ (commitState { nullifier := [], root_history := [0], utxo := [], message := [] }
              { root := 0, nullifier := [1, 2, 3, 4, 5, 6], out_hash := [11, 12], delta := 0,
                memo := 0, message := [], before_root := 0, after_root := 7 }).utxo)
       ∧ (commitState { nullifier := [], root_history := [0], utxo := [], message := [] }
            { root := 0, nullifier := [1, 2, 3, 4, 5, 6], out_hash := [11, 12], delta := 0,
              memo := 0, message := [], before_root := 0, after_root := 7 }).message = [] ++ [[]]
       ∧ 7 ∈ (commitState { nullifier := [], root_history := [0], utxo := [], message := [] }
            { root := 0, nullifier := [1, 2, 3, 4, 5, 6], out_hash := [11, 12], delta := 0,
              memo := 0, message := [], before_root := 0, after_root := 7 }).root_history)
    ∧ (allChecksPass { nullifier := [], root_history := [0], utxo := [], message := [] }
        { root := 0, nullifier := [1, 2, 3, 4, 5, 6], out_hash := [11, 12], delta := 0,
          memo := 0, message := [], before_root := 0, after_root := 7 }
        (fun _ => true) (fun _ => true) (fun _ => List.replicate 32 0) = false →
       ∃ e, transferAndUpdateRoot { nullifier := [], root_history := [0], utxo := [], message := [] }
        { root := 0, nullifier := [1, 2, 3, 4, 5, 6], out_hash := [11, 12], delta := 0,
          memo := 0, message := [], before_root := 0, after_root := 7 }
        (fun _ => true) (fun _ => true) (fun _ => List.replicate 32 0) = .error e) :=
  C1_transfer_atomic_commit_or_abort _ _ _ _ _


/-- C3 counterexample: `root_history` is a *set* (NEAR `UnorderedSet`), so a
successful call whose `after_root` is already in the history does not grow it
and does not make `current_root` return `after_root`.  Here the state has
`root_history = [0, 5]` (current root 5) and an accepted submission carries
`after_root = 0`: the call succeeds, yet `root_history` still has 2 elements
(not 3) and `current_root` is still `5`, not the committed `after_root = 0`. -/
theorem C3_counterexample :
    transferAndUpdateRoot { nullifier := [], root_history := [0, 5], utxo := [], message := [] }
      { root := 5, nullifier := [1, 2, 3, 4, 5, 6], out_hash := [11, 12], delta := 0,
        memo := 0, message := [], before_root := 5, after_root := 0 }
      (fun _ => true) (fun _ => true) (fun _ => List.replicate 32 0)
      = .ok { nullifier := [1, 2, 3, 4, 5, 6], root_history := [0, 5], utxo := [11, 12],
              message := [[]] }
    ∧ currentRoot { nullifier := [1, 2, 3, 4, 5, 6], root_history := [0, 5],
                    utxo := [11, 12], message := [[]] } ≠ some 0 := by
  constructor
  · rfl
  · decide


/-- C3 (amended): `num_tx` returns `|root_history| − 1`, and after every
successful `transfer_and_update_root` *whose `after_root` was not already in
`root_history`* the history grows by exactly one and `current_root` returns the
committed `after_root` (so along traces of fresh `after_root`s,
`|root_history| = 1 + number of accepted transactions`).  When `after_root` is
already present the set insert is a no-op and the history is unchanged. -/
theorem C3_root_history_growth (st : PoolState) (t : TxObj)
    (vtx vur : List Nat → Bool) (kec : List Nat → List Nat) (st' : PoolState)
    (hok : transferAndUpdateRoot st t vtx vur kec = .ok st')
    (hfresh : t.after_root ∉ st.root_history) :
    numTx st = some (st.root_history.length - 1)
    ∧ st'.root_history.length = st.root_history.length + 1
    ∧ currentRoot st' = some t.after_root
    ∧ numTx st' = some st.root_history.length := by
  obtain ⟨hch, rfl⟩ := (transfer_ok_iff st t vtx vur kec st').mp hok
  have hne : st.root_history.length ≠ 0 := by
    intro h0
    have : st.root_history = [] := List.length_eq_zero.mp h0
    unfold allChecksPass at hch
    simp [this] at hch
  have hins : (commitState st t).root_history = st.root_history ++ [t.after_root] := by
    simp [commitState, setInsert, hfresh]
  have hlen : (commitState st t).root_history.length = st.root_history.length + 1 := by
    simp [hins]
  refine ⟨by unfold numTx; rw [if_neg hne], hlen, ?_, ?_⟩
  · unfold currentRoot numTx
    rw [hlen]
    simp only [Nat.add_sub_cancel, if_neg (Nat.succ_ne_zero _)]
    rw [hins, List.get?_eq_getElem?]
    exact List.getElem?_concat_length _ _
  · unfold numTx
    rw [hlen]
    simp


/-- Witness for C3 at a concrete accepted submission with a fresh `after_root`. -/
theorem C3_root_history_growth_witness :
    numTx { nullifier := [], root_history := [0], utxo := [], message := [] } = some 0
    ∧ ({ nullifier := [1, 2, 3, 4, 5, 6], root_history := [0, 7], utxo := [11, 12],
         message := [[]] } : PoolState).root_history.length = 2
    ∧ currentRoot { nullifier := [1, 2, 3, 4, 5, 6], root_history := [0, 7],
                    utxo := [11, 12], message := [[]] } = some 7
    ∧ numTx { nullifier := [1, 2, 3, 4, 5, 6], root_history := [0, 7],
              utxo := [11, 12], message := [[]] } = some 1 :=
  C3_root_history_growth { nullifier := [], root_history := [0], utxo := [], message := [] }
    { root := 0, nullifier := [1, 2, 3, 4, 5, 6], out_hash := [11, 12], delta := 0,
      memo := 0, message := [], before_root := 0, after_root := 7 }
    (fun _ => true) (fun _ => true) (fun _ => List.replicate 32 0) _ rfl (by decide)


/-- C4: a replay of an accepted submission always fails: after the accepting
call inserted all `IN` nullifiers into the history set, the identical call on
the resulting state is stopped by the duplicate-nullifier-in-history check
(which precedes the `before_root` check), and — the result being an abort —
leaves the state unchanged. -/
theorem C4_replay_rejected (st : PoolState) (t : TxObj)
    (vtx vur : List Nat → Bool) (kec : List Nat → List Nat) (st' : PoolState)
    (hne : t.nullifier ≠ [])
    (hok : transferAndUpdateRoot st t vtx vur kec = .ok st') :
    transferAndUpdateRoot st' t vtx vur kec = .error "not unique nullifier in history" := by
  obtain ⟨hch, rfl⟩ := (transfer_ok_iff st t vtx vur kec st').mp hok
  unfold allChecksPass at hch
  simp only [Bool.and_eq_true, Bool.not_eq_true', beq_iff_eq] at hch
  obtain ⟨⟨⟨⟨⟨⟨⟨⟨h1, h2⟩, h3⟩, h4⟩, h5⟩, h6⟩, h7⟩, h8⟩, h9⟩ := hch
  obtain ⟨x, hx⟩ := List.exists_mem_of_ne_nil t.nullifier hne
  have hany : (t.nullifier.any fun e => (commitState st t).nullifier.contains e) = true :=
    List.any_eq_true.mpr ⟨x, hx, by simpa using mem_setInsertAll hx⟩
  unfold transferAndUpdateRoot
  rw [h1, h2, hany]
  simp


/-- Witness for C4: the concrete accepted submission of the C3 witness,
replayed on the committed state. -/
theorem C4_replay_rejected_witness :
    transferAndUpdateRoot
      { nullifier := [1, 2, 3, 4, 5, 6], root_history := [0, 7], utxo := [11, 12],
        message := [[]] }
      { root := 0, nullifier := [1, 2, 3, 4, 5, 6], out_hash := [11, 12], delta := 0,
        memo := 0, message := [], before_root := 0, after_root := 7 }
      (fun _ => true) (fun _ => true) (fun _ => List.replicate 32 0)
      = .error "not unique nullifier in history" :=
  C4_replay_rejected { nullifier := [], root_history := [0], utxo := [], message := [] }
    { root := 0, nullifier := [1, 2, 3, 4, 5, 6], out_hash := [11, 12], delta := 0,
      memo := 0, message := [], before_root := 0, after_root := 7 }
    (fun _ => true) (fun _ => true) (fun _ => List.replicate 32 0) _ (by decide) rfl


/-- C10: on a pool state with empty `root_history` the checked `u64`
subtraction in `num_tx` underflows and `current_root` finds no vector entry:
neither read-only query returns a value exactly when `root_history` is empty,
so both are total only under the non-empty precondition that initialization
with the empty-tree root establishes. -/
theorem C10_queries_total_iff_nonempty (st : PoolState) :
    (numTx st = none ↔ st.root_history = [])
    ∧ (currentRoot st = none ↔ st.root_history = []) := by
  constructor
  · unfold numTx
    constructor
    · intro h
      by_cases h0 : st.root_history.length = 0
      · exact List.length_eq_zero.mp h0
      · rw [if_neg h0] at h
        cases h
    · intro h
      rw [if_pos (by simp [h])]
  · constructor
    · intro h
      by_cases h0 : st.root_history.length = 0
      · exact List.length_eq_zero.mp h0
      · unfold currentRoot numTx at h
        rw [if_neg h0] at h
        have hlt : st.root_history.length - 1 < st.root_history.length := by omega
        simp only [List.get?_eq_getElem?, List.getElem?_eq_getElem hlt] at h
        cases h
    · intro h
      unfold currentRoot numTx
      rw [if_pos (by simp [h])]


/-- Witness for C10 at the empty pool state. -/
theorem C10_queries_total_iff_nonempty_witness :
    (numTx { nullifier := [], root_history := [], utxo := [], message := [] } = none
       ↔ ([] : List Nat) = [])
    ∧ (currentRoot { nullifier := [], root_history := [], utxo := [], message := [] } = none
       ↔ ([] : List Nat) = []) :=
  C10_queries_total_iff_nonempty _


/-- C2: the contract's memo check at `src/pool-contract/src/lib.rs:190` compares
`memo` against the *unreduced* 256-bit little-endian integer of the keccak
digest, not against its reduction into `Fr`.  At the concrete failing input
`message = []` (whose digest is `keccakEmptyDigest`, with little-endian value
`≥ r`), a submission carrying the spec-conformant memo
`keccak256(message) mod r` — which is what the client's
`Num::from_binary_be` reduction produces, up to the separate endianness
mismatch — is aborted with "wrong memo hash" even though every other check
passes. -/
theorem C2_memo_reduced_rejected :
    (bytesToNatLE keccakEmptyDigest % rFr ≠ bytesToNatLE keccakEmptyDigest
       ∧ rFr ≤ bytesToNatLE keccakEmptyDigest)
    ∧ transferAndUpdateRoot { nullifier := [], root_history := [5], utxo := [], message := [] }
        { root := 5, nullifier := [1, 2, 3, 4, 5, 6], out_hash := [11, 12], delta := 0,
          memo := bytesToNatLE keccakEmptyDigest % rFr, message := [],
          before_root := 5, after_root := 7 }
        (fun _ => true) (fun _ => true) (fun _ => keccakEmptyDigest)
      = .error "wrong memo hash" := by
  exact ⟨⟨by decide, by decide⟩, rfl⟩


theorem take_natToBytesLE {c k : Nat} (h : c ≤ k) (n : Nat) :
    (natToBytesLE k n).take c = natToBytesLE c n := by
  unfold natToBytesLE
  rw [← List.map_take, List.take_range, min_eq_left h]


/-- If `n < 256^c` then only the first `c` little-endian bytes of `n` can be
nonzero. -/
theorem natToBytesLE_eq_append_replicate {c k n : Nat} (hn : n < 256 ^ c) (hck : c ≤ k) :
    natToBytesLE k n = natToBytesLE c n ++ List.replicate (k - c) 0 := by
  induction c generalizing n k with
  | zero =>
      interval_cases n
      simp only [natToBytesLE, Nat.zero_div, Nat.zero_mod]
      rw [List.map_const']
      simp [natToBytesLE]
  | succ c ih =>
      cases k with
      | zero => omega
      | succ k =>
          rw [natToBytesLE_succ, natToBytesLE_succ]
          have hdiv : n / 256 < 256 ^ c := by
            rw [Nat.div_lt_iff_lt_mul (by norm_num)]
            calc n < 256 ^ (c + 1) := hn
            _ = 256 ^ c * 256 := by rw [pow_succ]
          rw [ih hdiv (by omega)]
          simp [Nat.succ_sub_succ]


/-- If some byte of `n` at index `≥ c` is nonzero then `n ≥ 256^c`
(contrapositive form: all high bytes zero forces `n < 256^c`). -/
theorem lt_of_bytes_zero {c k n : Nat} (hk : n < 256 ^ k) (hck : c ≤ k)
    (h : ∀ i, c ≤ i → i < k → n / 256 ^ i % 256 = 0) : n < 256 ^ c := by
  have key : ∀ d m, m < 256 ^ d → (∀ j, j < d → m / 256 ^ j % 256 = 0) → m = 0 := by
    intro d
    induction d with
    | zero => intro m hm _; omega
    | succ d ih =>
        intro m hm hz
        have h0 : m % 256 = 0 := by simpa using hz 0 (Nat.succ_pos d)
        have hd : m / 256 = 0 := by
          apply ih
          · rw [Nat.div_lt_iff_lt_mul (by norm_num)]
            calc m < 256 ^ (d + 1) := hm
            _ = 256 ^ d * 256 := by rw [pow_succ]
          · intro j hj
            rw [Nat.div_div_eq_div_mul, ← pow_succ']
            exact hz (j + 1) (by omega)
        omega
  have hq : n / 256 ^ c = 0 := by
    apply key (k - c)
    · rw [Nat.div_lt_iff_lt_mul (by positivity)]
      calc n < 256 ^ k := hk
      _ = 256 ^ (k - c) * 256 ^ c := by rw [← pow_add]; congr 1; omega
    · intro j hj
      rw [Nat.div_div_eq_div_mul, ← pow_add]
      exact h (c + j) (by omega) (by omega)
  rw [← Nat.div_add_mod n (256 ^ c), hq]
  simpa using Nat.mod_lt n (y := 256 ^ c) (by positivity)


theorem natToBytesLE_getElem? {k n i : Nat} (h : i < k) :
    (natToBytesLE k n)[i]? = some (n / 256 ^ i % 256) := by
  unfold natToBytesLE
  simp [List.getElem?_map, List.getElem?_range, h]


theorem rFr_lt_pow : rFr < 256 ^ numSize := by decide


/-- One successful chunk of `to_compressed`: the dropped high bytes of a value
that fits in `c` bytes are all zero. -/
theorem toCompressedAux_cons_ok {c : Nat} (cs : List Nat) {x : Nat} (rest : List Nat)
    (hc : c ≤ numSize) (hx : x < 256 ^ c) :
    toCompressedAux (c :: cs) (numToBytes x ++ rest)
      = (toCompressedAux cs rest).map (fun r => natToBytesLE c x ++ r) := by
  have hlen : (numToBytes x).length = numSize := by simp [numToBytes]
  have h1 : (numToBytes x ++ rest).take numSize = numToBytes x := List.take_left' hlen
  have h2 : (numToBytes x ++ rest).drop numSize = rest := List.drop_left' hlen
  have h3 : (numToBytes x ++ rest).take c = natToBytesLE c x := by
    rw [List.take_append_of_le_length (by rw [hlen]; exact hc)]
    exact take_natToBytesLE hc x
  have h4 : (numToBytes x).drop c = List.replicate (numSize - c) 0 := by
    rw [numToBytes, natToBytesLE_eq_append_replicate hx hc]
    exact List.drop_left' (by simp)
  show (if (((numToBytes x ++ rest).take numSize).drop c).any (fun b => b != 0) = true then none
        else (toCompressedAux cs ((numToBytes x ++ rest).drop numSize)).map
          (fun r => (numToBytes x ++ rest).take c ++ r))
      = (toCompressedAux cs rest).map fun r => natToBytesLE c x ++ r
  rw [h1, h2, h3, h4]
  simp


/-- One failing chunk of `to_compressed`: a value that does not fit in `c`
bytes has a nonzero dropped byte, and serialization errors out. -/
theorem toCompressedAux_cons_fail {c : Nat} (cs : List Nat) {x : Nat} (rest : List Nat)
    (hc : c ≤ numSize) (hx32 : x < 256 ^ numSize) (hx : ¬x < 256 ^ c) :
    toCompressedAux (c :: cs) (numToBytes x ++ rest) = none := by
  unfold toCompressedAux
  rw [List.take_left' (by simp [numToBytes])]
  have hany : (((numToBytes x).drop c).any fun b => b != 0) = true := by
    by_contra hfalse
    rw [Bool.not_eq_true, List.any_eq_false] at hfalse
    apply hx
    apply lt_of_bytes_zero hx32 hc
    intro i hci hik
    have hdrop : ((numToBytes x).drop c)[i - c]? = some (x / 256 ^ i % 256) := by
      rw [List.getElem?_drop]
      have : c + (i - c) = i := by omega
      rw [this]
      exact natToBytesLE_getElem? hik
    have hmem := List.getElem?_mem hdrop
    have := hfalse _ hmem
    simpa using this
  rw [hany]
  simp


/-- One chunk of `to_decompressed`: zero-extending the `c`-byte chunk of a
value that fits in `c` bytes recovers its full 32-byte serialization. -/
theorem toDecompressedAux_cons {c : Nat} (cs : List Nat) {x : Nat} (rest : List Nat)
    (hc : c ≤ numSize) (hx : x < 256 ^ c) :
    toDecompressedAux (c :: cs) (natToBytesLE c x ++ rest)
      = numToBytes x ++ toDecompressedAux cs rest := by
  show ((natToBytesLE c x ++ rest).take c ++ List.replicate (numSize - c) 0)
        ++ toDecompressedAux cs ((natToBytesLE c x ++ rest).drop c)
      = numToBytes x ++ toDecompressedAux cs rest
  rw [List.take_left' (by simp), List.drop_left' (by simp)]
  rw [numToBytes, natToBytesLE_eq_append_replicate hx hc, List.append_assoc]


theorem numFromBytes_append_left {x : Nat} (rest : List Nat) (hx : x < rFr) :
    numFromBytes ((numToBytes x ++ rest).take 32) = some x := by
  rw [List.take_left' (by simp [numToBytes, numSize])]
  unfold numFromBytes numToBytes
  rw [bytesToNatLE_natToBytesLE_of_lt (lt_trans hx rFr_lt_pow)]
  simp [hx, numSize]


theorem drop32_append_left {x : Nat} (rest : List Nat) :
    (numToBytes x ++ rest).drop 32 = rest :=
  List.drop_left' (by simp [numToBytes, numSize])


/-- Successful serialization: a note with in-range `d`, `v`, `st` compresses to
the concatenation of its chunk-width little-endian encodings. -/
theorem noteToBytes_eq_of_ranges (n : NoteM) (hpk : n.pk_d < rFr)
    (h10 : n.d < 256 ^ 10) (h8 : n.v < 256 ^ 8) (h10' : n.st < 256 ^ 10) :
    noteToBytes n = some (natToBytesLE 10 n.d ++ (natToBytesLE 32 n.pk_d ++
      (natToBytesLE 8 n.v ++ (natToBytesLE 10 n.st ++ [])))) := by
  have hpk32 : n.pk_d < 256 ^ 32 := lt_trans hpk rFr_lt_pow
  have hassoc : numToBytes n.d ++ numToBytes n.pk_d ++ numToBytes n.v ++ numToBytes n.st
      = numToBytes n.d ++ (numToBytes n.pk_d ++ (numToBytes n.v ++ (numToBytes n.st ++ []))) := by
    simp [List.append_assoc]
  unfold noteToBytes toCompressed
  rw [hassoc, if_pos (by simp [numToBytes, numSize, NOTE_CHUNKS])]
  simp only [NOTE_CHUNKS]
  rw [toCompressedAux_cons_ok _ _ (by norm_num [numSize]) h10,
      toCompressedAux_cons_ok _ _ (by norm_num [numSize]) hpk32,
      toCompressedAux_cons_ok _ _ (by norm_num [numSize]) h8,
      toCompressedAux_cons_ok _ _ (by norm_num [numSize]) h10']
  simp [toCompressedAux]


/-- Deserialization inverts a successful serialization. -/
theorem noteFromBytes_roundtrip (n : NoteM)
    (hd : n.d < rFr) (hpk : n.pk_d < rFr) (hv : n.v < rFr) (hst : n.st < rFr)
    (h10 : n.d < 256 ^ 10) (h8 : n.v < 256 ^ 8) (h10' : n.st < 256 ^ 10) :
    noteFromBytes (natToBytesLE 10 n.d ++ (natToBytesLE 32 n.pk_d ++
      (natToBytesLE 8 n.v ++ (natToBytesLE 10 n.st ++ [])))) = some n := by
  have hpk32 : n.pk_d < 256 ^ 32 := lt_trans hpk rFr_lt_pow
  have e1 : ∀ l : List Nat, l.drop 64 = (l.drop 32).drop 32 := by
    intro l
    rw [List.drop_drop]
  have e2 : ∀ l : List Nat, l.drop 96 = ((l.drop 32).drop 32).drop 32 := by
    intro l
    rw [List.drop_drop, List.drop_drop]
  unfold noteFromBytes
  rw [if_neg (by simp [NOTE_CHUNKS]), show NOTE_CHUNKS.sum = 60 from rfl,
    List.take_of_length_le (by simp)]
  unfold toDecompressed
  rw [if_pos (by simp [NOTE_CHUNKS])]
  rw [Option.some_bind]
  simp only [NOTE_CHUNKS]
  rw [toDecompressedAux_cons _ _ (by norm_num [numSize]) h10,
      toDecompressedAux_cons _ _ (by norm_num [numSize]) hpk32,
      toDecompressedAux_cons _ _ (by norm_num [numSize]) h8,
      toDecompressedAux_cons _ _ (by norm_num [numSize]) h10']
  rw [e1, e2]
  simp only [drop32_append_left]
  rw [numFromBytes_append_left _ hd, numFromBytes_append_left _ hpk,
      numFromBytes_append_left _ hv, numFromBytes_append_left _ hst]


/-- Failed serialization: a nonzero high byte in `d`, `v` or `st` makes
`to_compressed` error out. -/
theorem noteToBytes_none_of_overflow (n : NoteM)
    (hd : n.d < rFr) (hpk : n.pk_d < rFr) (hv : n.v < rFr) (hst : n.st < rFr)
    (hnot : ¬(n.d < 256 ^ 10 ∧ n.v < 256 ^ 8 ∧ n.st < 256 ^ 10)) :
    noteToBytes n = none := by
  have hpk32 : n.pk_d < 256 ^ 32 := lt_trans hpk rFr_lt_pow
  have hassoc : numToBytes n.d ++ numToBytes n.pk_d ++ numToBytes n.v ++ numToBytes n.st
      = numToBytes n.d ++ (numToBytes n.pk_d ++ (numToBytes n.v ++ (numToBytes n.st ++ []))) := by
    simp [List.append_assoc]
  unfold noteToBytes toCompressed
  rw [hassoc, if_pos (by simp [numToBytes, numSize, NOTE_CHUNKS])]
  simp only [NOTE_CHUNKS]
  by_cases h10 : n.d < 256 ^ 10
  · by_cases h8 : n.v < 256 ^ 8
    · have h10' : ¬n.st < 256 ^ 10 := by tauto
      rw [toCompressedAux_cons_ok _ _ (by norm_num [numSize]) h10,
          toCompressedAux_cons_ok _ _ (by norm_num [numSize]) hpk32,
          toCompressedAux_cons_ok _ _ (by norm_num [numSize]) h8,
          toCompressedAux_cons_fail _ _ (by norm_num [numSize]) (lt_trans hst rFr_lt_pow) h10']
      rfl
    · rw [toCompressedAux_cons_ok _ _ (by norm_num [numSize]) h10,
          toCompressedAux_cons_ok _ _ (by norm_num [numSize]) hpk32,
          toCompressedAux_cons_fail _ _ (by norm_num [numSize]) (lt_trans hv rFr_lt_pow) h8]
      rfl
  · rw [toCompressedAux_cons_fail _ _ (by norm_num [numSize]) (lt_trans hd rFr_lt_pow) h10]


/-- C7: a note whose fields fit their chunk widths `[10, 32, 8, 10]` bytes
serializes to exactly 60 bytes and deserializes back to itself; a note with a
nonzero byte above a chunk width fails to serialize.  (The four fields of a
`Note<Fr>` are canonical field elements, hence the `< rFr` hypotheses; the
`pk_d` chunk is the full 32-byte width, so `pk_d` never fails.) -/
theorem C7_note_codec_roundtrip (n : NoteM)
    (hd : n.d < rFr) (hpk : n.pk_d < rFr) (hv : n.v < rFr) (hst : n.st < rFr) :
    ((n.d < 256 ^ 10 ∧ n.v < 256 ^ 8 ∧ n.st < 256 ^ 10) →
       ∃ bs, noteToBytes n = some bs ∧ bs.length = 60 ∧ noteFromBytes bs = some n)
    ∧ (¬(n.d < 256 ^ 10 ∧ n.v < 256 ^ 8 ∧ n.st < 256 ^ 10) →
       noteToBytes n = none) := by
  constructor
  · rintro ⟨h10, h8, h10'⟩
    exact ⟨_, noteToBytes_eq_of_ranges n hpk h10 h8 h10', by simp,
      noteFromBytes_roundtrip n hd hpk hv hst h10 h8 h10'⟩
  · exact noteToBytes_none_of_overflow n hd hpk hv hst


/-- Witness for C7 at the concrete note `(d, pk_d, v, st) = (1, 2, 3, 4)`. -/
theorem C7_note_codec_roundtrip_witness :
    ((1 : Nat) < rFr ∧ (2 : Nat) < rFr ∧ (3 : Nat) < rFr ∧ (4 : Nat) < rFr)
    ∧ ((((⟨1, 2, 3, 4⟩ : NoteM).d < 256 ^ 10 ∧ (⟨1, 2, 3, 4⟩ : NoteM).v < 256 ^ 8
          ∧ (⟨1, 2, 3, 4⟩ : NoteM).st < 256 ^ 10) →
         ∃ bs, noteToBytes ⟨1, 2, 3, 4⟩ = some bs ∧ bs.length = 60
           ∧ noteFromBytes bs = some ⟨1, 2, 3, 4⟩)
       ∧ (¬((⟨1, 2, 3, 4⟩ : NoteM).d < 256 ^ 10 ∧ (⟨1, 2, 3, 4⟩ : NoteM).v < 256 ^ 8
          ∧ (⟨1, 2, 3, 4⟩ : NoteM).st < 256 ^ 10) →
         noteToBytes ⟨1, 2, 3, 4⟩ = none)) :=
  ⟨⟨by decide, by decide, by decide, by decide⟩,
   C7_note_codec_roundtrip ⟨1, 2, 3, 4⟩ (by decide) (by decide) (by decide) (by decide)⟩


/-- C5: over the prime field of the circuit, the membership constraint for an
input is satisfied iff its value is zero (padding notes pass with an arbitrary
Merkle proof) or the Merkle path reconstructs the public root. -/
theorem C5_membership_gated_on_value {F : Type} [Field F] (compress : F → F → F)
    (root noteHash v : F) (proof : List (F × Bool)) :
    membershipConstraint compress root noteHash v proof ↔
      (v = 0 ∨ merkleProofRoot compress noteHash proof = root) := by
  unfold membershipConstraint
  rw [mul_eq_zero, sub_eq_zero]
  tauto


/-- Witness for C5 over the concrete field `ZMod 5`, with both a zero-value
note under a wrong proof and the equivalence itself instantiated. -/
theorem C5_membership_gated_on_value_witness :
    membershipConstraint (F := ZMod 5) (fun a b => a + b) 3 1 0 [(2, true)] ↔
      ((0 : ZMod 5) = 0 ∨ merkleProofRoot (F := ZMod 5) (fun a b => a + b) 1 [(2, true)] = 3) :=
  C5_membership_gated_on_value (fun a b => a + b) 3 1 0 [(2, true)]


/-- C9 counterexample: at the field element `2^64` the claim predicts that
`parse_delta` takes the low 64 bits (giving `0`); the native code instead hits
`assert!(delta_num < limit_amount)` and aborts, returning no value. -/
theorem C9_counterexample :
    parse_delta ((2 ^ 64 : Nat) : ZMod rFr) = none := by
  have hval : (((2 ^ 64 : Nat) : ZMod rFr)).val = 2 ^ 64 := by
    rw [ZMod.val_natCast]
    exact Nat.mod_eq_of_lt (by decide)
  unfold parse_delta
  rw [hval, if_neg (by omega)]


/-- C9 (amended): for every field element `delta` with value below `2^64`,
`parse_delta` returns `delta` when the sign bit (bit 63) is clear and
`delta − 2^64` when it is set, and the circuit's `c_parse_delta` agrees with
the native `parse_delta`; for `delta ≥ 2^64` the native function aborts on its
assertion instead of truncating to the low 64 bits. -/
theorem C9_parse_delta_signed_agree (delta : ZMod rFr) (h : delta.val < 2 ^ 64) :
    parse_delta delta
      = some (if delta.val < 2 ^ 63 then delta else delta - (2 ^ 64 : ZMod rFr))
    ∧ c_parse_delta delta = parse_delta delta := by
  have e63 : (2 : Nat) ^ 63 = 9223372036854775808 := by norm_num
  constructor
  · unfold parse_delta
    rw [if_pos h]
  · unfold c_parse_delta parse_delta
    rw [if_pos h, if_pos h]
    congr 1
    by_cases h63 : delta.val < 2 ^ 63
    · rw [if_pos h63]
      have hb : delta.val / 2 ^ 63 % 2 = 0 := by
        rw [e63] at h63 ⊢
        omega
      rw [hb]
      simp
    · rw [if_neg h63]
      have hb : delta.val / 2 ^ 63 % 2 = 1 := by
        have e64 : (2 : Nat) ^ 64 = 18446744073709551616 := by norm_num
        rw [e63] at h63 ⊢
        rw [e64] at h
        omega
      rw [hb]
      simp


/-- Witness for C9 at the concrete field element `5`. -/
theorem C9_parse_delta_signed_agree_witness :
    (((5 : Nat) : ZMod rFr)).val < 2 ^ 64
    ∧ (parse_delta ((5 : Nat) : ZMod rFr)
        = some (if (((5 : Nat) : ZMod rFr)).val < 2 ^ 63 then ((5 : Nat) : ZMod rFr)
            else ((5 : Nat) : ZMod rFr) - (2 ^ 64 : ZMod rFr))
       ∧ c_parse_delta ((5 : Nat) : ZMod rFr) = parse_delta ((5 : Nat) : ZMod rFr)) :=
  ⟨by rw [ZMod.val_natCast]; decide,
   C9_parse_delta_signed_agree ((5 : Nat) : ZMod rFr) (by rw [ZMod.val_natCast]; decide)⟩


/-- Invariant of the downsizing loop: on successful exit the selection still
covers the amount, keeps `IN` in-range indices, and preserves
`spending − Σ_{j ∈ indexes} v[j]` (each swap subtracts the same difference
from the spending and from the selected-value sum). -/
theorem downsizeLoop_spec (vs : List Nat) (amount noteLen : Nat) (hIN : 0 < noteLen) :
    ∀ fuel i spending indexes s idx,
      fuel + i = UTXO_IN →
      indexes.length = UTXO_IN →
      (∀ k, k < fuel → indexes.getD k 0 = k) →
      (∀ j ∈ indexes, j < noteLen) →
      amount ≤ spending →
      downsizeLoop vs amount noteLen fuel i spending indexes = some (s, idx) →
      amount ≤ s ∧ idx.length = UTXO_IN ∧ (∀ j ∈ idx, j < noteLen) ∧
        (s : Int) - idxSum vs idx = (spending : Int) - idxSum vs indexes := by
  intro fuel
  induction fuel with
  | zero =>
      intro i spending indexes s idx hfi hlen hpre hbound ham hres
      simp only [downsizeLoop, Option.some.injEq, Prod.mk.injEq] at hres
      obtain ⟨rfl, rfl⟩ := hres
      exact ⟨ham, hlen, hbound, by ring⟩
  | succ fuel ih =>
      intro i spending indexes s idx hfi hlen hpre hbound ham hres
      have hi1 : UTXO_IN - i - 1 = fuel := by
        unfold UTXO_IN at *
        omega
      unfold downsizeLoop at hres
      split at hres
      · cases hres
      · rename_i dlt hdlt
        split at hres
        · cases hres
        · rename_i s' hs'
          rw [checkedSub] at hdlt
          split at hdlt
          case isFalse => cases hdlt
          case isTrue hble =>
            rw [checkedSub] at hs'
            split at hs'
            case isFalse => cases hs'
            case isTrue hsle =>
              injection hdlt with hdlt
              injection hs' with hs'
              split at hres
              · rename_i hlt
                simp only [Option.some.injEq, Prod.mk.injEq] at hres
                obtain ⟨rfl, rfl⟩ := hres
                exact ⟨ham, hlen, hbound, by ring⟩
              · rename_i hlt
                have hfuel6 : fuel < UTXO_IN := by
                  unfold UTXO_IN at *
                  omega
                have hlen' : (indexes.set (UTXO_IN - i - 1) (noteLen - i - 1)).length
                    = UTXO_IN := by
                  simp [List.length_set, hlen]
                have hpre' : ∀ k, k < fuel →
                    (indexes.set (UTXO_IN - i - 1) (noteLen - i - 1)).getD k 0 = k := by
                  intro k hk
                  rw [hi1]
                  rw [List.getD_eq_getElem _ 0 (by simp [hlen]; exact lt_trans hk hfuel6)]
                  rw [List.getElem_set_ne (by omega)]
                  rw [← List.getD_eq_getElem indexes 0 (by simp [hlen]; exact lt_trans hk hfuel6)]
                  exact hpre k (by omega)
                have hbound' : ∀ j ∈ indexes.set (UTXO_IN - i - 1) (noteLen - i - 1),
                    j < noteLen := by
                  intro j hj
                  rcases List.mem_or_eq_of_mem_set hj with hj' | rfl
                  · exact hbound j hj'
                  · omega
                have ham' : amount ≤ s' := by omega
                obtain ⟨ha, hb, hc, hd⟩ := ih (i + 1) s' _ s idx (by omega) hlen' hpre' hbound' ham' hres
                refine ⟨ha, hb, hc, ?_⟩
                have hidxfuel : indexes.getD fuel 0 = fuel := hpre fuel (Nat.lt_succ_self fuel)
                have hflen : fuel < indexes.length := by
                  rw [hlen]
                  exact hfuel6
                have hsum : idxSum vs (indexes.set (UTXO_IN - i - 1) (noteLen - i - 1))
                    = idxSum vs indexes - ((vs.getD fuel 0 : Nat) : Int)
                      + ((vs.getD (noteLen - i - 1) 0 : Nat) : Int) := by
                  rw [hi1]
                  unfold idxSum
                  rw [List.map_set, List.sum_set']
                  rw [dif_pos (by simpa using hflen)]
                  rw [List.getElem_map]
                  have : indexes[fuel] = fuel := by
                    rw [← List.getD_eq_getElem indexes 0 hflen]
                    exact hidxfuel
                  rw [this]
                  ring
                rw [hd, hsum, hi1] at *
                have hcast1 : (s' : Int) = (spending : Int) - (dlt : Int) := by
                  rw [← hs']
                  push_cast [Nat.cast_sub hsle]
                  ring
                have hcast2 : (dlt : Int)
                    = ((vs.getD fuel 0 : Nat) : Int) - ((vs.getD (noteLen - i - 1) 0 : Nat) : Int) := by
                  rw [← hdlt]
                  push_cast [Nat.cast_sub hble]
                  ring
                rw [hcast1, hcast2]
                ring


theorem range_getD_eq_take (vs : List Nat) (k : Nat) (hk : k ≤ vs.length) :
    (List.range k).map (fun j => vs.getD j 0) = vs.take k := by
  apply List.ext_getElem
  · simp [hk]
  · intro i h1 h2
    simp only [List.getElem_map, List.getElem_range, List.getElem_take]
    rw [List.getD_eq_getElem vs 0 (by simp at h1; omega)]


theorem idxSum_range (vs : List Nat) (k : Nat) (hk : k ≤ vs.length) :
    idxSum vs (List.range k) = (((vs.take k).sum : Nat) : Int) := by
  unfold idxSum
  have hmm : (List.range k).map (fun j => ((vs.getD j 0 : Nat) : Int))
      = ((List.range k).map (fun j => vs.getD j 0)).map (fun x : Nat => (x : Int)) := by
    rw [List.map_map]
    rfl
  rw [hmm, range_getD_eq_take vs k hk]
  exact (Nat.cast_list_sum _).symm


theorem sumTopValues_eq_take_sum (notes : List (Nat × NoteM)) :
    sumTopValues notes = ((sortedValues notes).take UTXO_IN).sum := by
  unfold sumTopValues sortedValues
  rw [List.map_take]


theorem sortNotesDesc_snd_val (notes : List (Nat × NoteM)) :
    ∀ e ∈ sortNotesDesc notes, e.2.1.v = e.2.2 := by
  intro e he
  have hmem : e ∈ notes.map (fun x => (x.1, x.2, x.2.v)) :=
    (List.perm_insertionSort _ _).mem_iff.mp he
  obtain ⟨x, _, rfl⟩ := List.mem_map.mp hmem
  rfl


theorem sortNotesDesc_length (notes : List (Nat × NoteM)) :
    (sortNotesDesc notes).length = notes.length := by
  unfold sortNotesDesc
  rw [List.length_insertionSort, List.length_map]


theorem sortedValues_length (notes : List (Nat × NoteM)) :
    (sortedValues notes).length = notes.length := by
  unfold sortedValues
  rw [List.length_map, sortNotesDesc_length]


/-- C6: the builder returns `None` when the spending amount (the values of the
top-`IN` selected notes plus `delta`) falls short of the requested amount; and
whenever it returns a transaction, the sender change note carries
`spending − amount`, the receiver note carries `amount`, every padding input
note carries value `0` (there are no padding outputs at `OUT = 2`), and the
selected input values plus `delta` equal the sum of the output values. -/
theorem C6_builder_insufficient_and_balance (notes : List (Nat × NoteM)) (amount : Nat)
    (delta : Int) (senderD senderSt recvSt : Nat) (recvAddr : Nat × Nat)
    (padD padPk padSt : Nat → Nat) (derivePkd : Nat → Nat) :
    ((sumTopValues notes : Int) + delta < (amount : Int) →
       makeTransactionObject notes amount delta senderD senderSt recvSt recvAddr
         padD padPk padSt derivePkd = some none)
    ∧ (∀ tb, makeTransactionObject notes amount delta senderD senderSt recvSt recvAddr
         padD padPk padSt derivePkd = some (some tb) →
       ∃ spending, amount ≤ spending
         ∧ tb.output = [⟨senderD, derivePkd senderD, spending - amount, senderSt⟩,
                        ⟨recvAddr.1, recvAddr.2, amount, recvSt⟩]
         ∧ (∀ nt ∈ tb.input.drop (min UTXO_IN notes.length), nt.v = 0)
         ∧ (tb.input.map fun nt => (nt.v : Int)).sum + delta
             = (tb.output.map fun nt => (nt.v : Int)).sum) := by
  constructor
  · intro hlt
    unfold makeTransactionObject
    by_cases h0 : (sumTopValues notes : Int) + delta < 0
    · rw [if_pos h0]
    · rw [if_neg h0, if_pos (by omega)]
  · intro tb htb
    unfold makeTransactionObject at htb
    split at htb
    · simp at htb
    split at htb
    · simp at htb
    rename_i h0 hamount0
    split at htb
    · simp at htb
    rename_i spending indexes hloop
    split at htb
    · simp at htb
    rename_i dp hdp
    simp only [Option.some.injEq] at htb
    subst htb
    -- facts shared by the two branches of the selection
    have hnl : (sortNotesDesc notes).length = notes.length := sortNotesDesc_length notes
    have hvl : (sortedValues notes).length = (sortNotesDesc notes).length := by
      rw [sortedValues_length, hnl]
    have hkey : amount ≤ spending
        ∧ indexes.length = min UTXO_IN (sortNotesDesc notes).length
        ∧ (∀ j ∈ indexes, j < (sortNotesDesc notes).length)
        ∧ (spending : Int) = idxSum (sortedValues notes) indexes + delta := by
      have hsp0 : ((((sumTopValues notes : Int) + delta).toNat : Nat) : Int)
          = (sumTopValues notes : Int) + delta := Int.toNat_of_nonneg (by omega)
      split at hloop
      · rename_i hbig
        have hmin : min UTXO_IN (sortNotesDesc notes).length = UTXO_IN :=
          min_eq_left (le_of_lt hbig)
        rw [hmin] at hloop
        have h6len : UTXO_IN ≤ (sortedValues notes).length := by omega
        obtain ⟨ha, hb, hc, hd⟩ := downsizeLoop_spec (sortedValues notes) amount
          (sortNotesDesc notes).length (by omega) UTXO_IN 0 _ _ spending indexes
          rfl (by simp)
          (by
            intro k hk
            rw [List.getD_eq_getElem _ 0 (by simpa using hk), List.getElem_range])
          (by
            intro j hj
            have := List.mem_range.mp hj
            omega)
          (by omega) hloop
        refine ⟨ha, by rw [hb, hmin], hc, ?_⟩
        rw [idxSum_range _ _ h6len] at hd
        rw [← sumTopValues_eq_take_sum] at hd
        rw [hsp0] at hd
        omega
      · rename_i hbig
        have hmin : min UTXO_IN (sortNotesDesc notes).length
            = (sortNotesDesc notes).length := min_eq_right (by omega)
        rw [hmin] at hloop
        simp only [Option.some.injEq, Prod.mk.injEq] at hloop
        obtain ⟨rfl, rfl⟩ := hloop
        refine ⟨by omega, by simp [hmin], ?_, ?_⟩
        · intro j hj
          exact List.mem_range.mp hj
        · rw [idxSum_range _ _ (by omega)]
          rw [List.take_of_length_le (by omega)]
          have htake : sumTopValues notes = (sortedValues notes).sum := by
            rw [sumTopValues_eq_take_sum, List.take_of_length_le (by omega)]
          rw [← htake]
          omega
    obtain ⟨hamle, hidxlen, hbound, hspend⟩ := hkey
    refine ⟨spending, hamle, rfl, ?_, ?_⟩
    · intro nt hnt
      have hsellen : (indexes.map fun i =>
          ((sortNotesDesc notes).getD i (0, ⟨0, 0, 0, 0⟩, 0)).2.1).length
          = min UTXO_IN notes.length := by
        rw [List.length_map, hidxlen, hnl]
      rw [List.drop_left' hsellen] at hnt
      obtain ⟨j, _, rfl⟩ := List.mem_map.mp hnt
      rfl
    · have hsel : (indexes.map fun i =>
          ((sortNotesDesc notes).getD i (0, ⟨0, 0, 0, 0⟩, 0)).2.1).map
            (fun nt => (nt.v : Int))
          = indexes.map fun j => (((sortedValues notes).getD j 0 : Nat) : Int) := by
        rw [List.map_map]
        apply List.map_congr_left
        intro j hj
        have hjlen : j < (sortNotesDesc notes).length := hbound j hj
        simp only [Function.comp_apply]
        rw [List.getD_eq_getElem _ _ hjlen,
            List.getD_eq_getElem _ 0 (by rw [hvl]; exact hjlen)]
        have hv : (sortNotesDesc notes)[j].2.1.v = (sortNotesDesc notes)[j].2.2 :=
          sortNotesDesc_snd_val notes _ (List.getElem_mem hjlen)
        rw [hv]
        congr 1
        unfold sortedValues
        rw [List.getElem_map]
      dsimp only
      rw [List.map_append, List.sum_append, hsel]
      have hpad : (((List.range (UTXO_IN - indexes.length)).map fun j =>
          (⟨padD j, padPk j, 0, padSt j⟩ : NoteM)).map fun nt => (nt.v : Int)).sum = 0 := by
        rw [List.map_map]
        simp [Function.comp_def]
      rw [hpad]
      simp only [List.map_cons, List.map_nil, List.sum_cons, List.sum_nil]
      have hidx : (indexes.map fun j => (((sortedValues notes).getD j 0 : Nat) : Int)).sum
          = idxSum (sortedValues notes) indexes := rfl
      rw [hidx, Nat.cast_sub hamle]
      omega


/-- Witness for C6 at a concrete one-note wallet. -/
theorem C6_builder_insufficient_and_balance_witness :
    ((sumTopValues [(0, ⟨1, 2, 3, 4⟩)] : Int) + 0 < ((1 : Nat) : Int) →
       makeTransactionObject [(0, ⟨1, 2, 3, 4⟩)] 1 0 9 8 7 (5, 6)
         (fun _ => 0) (fun _ => 0) (fun _ => 0) (fun d => d + 1) = some none)
    ∧ (∀ tb, makeTransactionObject [(0, ⟨1, 2, 3, 4⟩)] 1 0 9 8 7 (5, 6)
         (fun _ => 0) (fun _ => 0) (fun _ => 0) (fun d => d + 1) = some (some tb) →
       ∃ spending, 1 ≤ spending
         ∧ tb.output = [⟨9, 9 + 1, spending - 1, 8⟩, ⟨(5, 6).1, (5, 6).2, 1, 7⟩]
         ∧ (∀ nt ∈ tb.input.drop (min UTXO_IN [(0, (⟨1, 2, 3, 4⟩ : NoteM))].length), nt.v = 0)
         ∧ (tb.input.map fun nt => (nt.v : Int)).sum + 0
             = (tb.output.map fun nt => (nt.v : Int)).sum) :=
  C6_builder_insufficient_and_balance [(0, ⟨1, 2, 3, 4⟩)] 1 0 9 8 7 (5, 6)
    (fun _ => 0) (fun _ => 0) (fun _ => 0) (fun d => d + 1)


theorem mask_block_count_ge (len : Nat) : len ≤ 32 * ((len - 1) / 32 + 1) := by
  rcases Nat.eq_zero_or_pos len with rfl | hpos
  · simp
  · have h1 := Nat.div_add_mod (len - 1) 32
    have h2 : (len - 1) % 32 < 32 := Nat.mod_lt _ (by norm_num)
    omega


theorem mask_flatten_length (maskBlock : Nat → List Nat)
    (hmask : ∀ i, (maskBlock i).length = 32) (k : Nat) :
    (((List.range k).map maskBlock).flatten).length = 32 * k := by
  rw [List.length_flatten, List.map_map]
  have hrep : (List.range k).map (List.length ∘ maskBlock) = List.replicate k 32 := by
    apply List.ext_getElem (by simp)
    intro i h1 h2
    simp [Function.comp_apply, hmask]
  rw [hrep]
  simp [List.sum_replicate, Nat.mul_comm]


theorem xorCrypt_length (maskBlock : Nat → List Nat)
    (hmask : ∀ i, (maskBlock i).length = 32) (data : List Nat) :
    (xorCrypt maskBlock data).length = data.length := by
  unfold xorCrypt
  rw [List.length_zipWith, mask_flatten_length maskBlock hmask]
  exact min_eq_left (mask_block_count_ge data.length)


theorem zipWith_xor_cancel (data : List Nat) : ∀ mask : List Nat,
    data.length ≤ mask.length →
    List.zipWith (fun d m => d ^^^ m)
      (List.zipWith (fun d m => d ^^^ m) data mask) mask = data := by
  induction data with
  | nil =>
      intro mask h
      simp
  | cons a as ih =>
      intro mask h
      cases mask with
      | nil => simp at h
      | cons b bs =>
          simp only [List.zipWith_cons_cons]
          rw [ih bs (by simpa using h)]
          rw [Nat.xor_cancel_right b a]


/-- Decrypting an encryption with the same mask stream recovers the data. -/
theorem xorCrypt_involutive (maskBlock : Nat → List Nat)
    (hmask : ∀ i, (maskBlock i).length = 32) (data : List Nat) :
    xorCrypt maskBlock (xorCrypt maskBlock data) = data := by
  unfold xorCrypt
  have hl2 : (List.zipWith (fun d m => d ^^^ m) data
      (((List.range ((data.length - 1) / 32 + 1)).map maskBlock).flatten)).length
      = data.length := by
    rw [List.length_zipWith, mask_flatten_length maskBlock hmask]
    exact min_eq_left (mask_block_count_ge data.length)
  rw [hl2]
  exact zipWith_xor_cancel data _
    (by rw [mask_flatten_length maskBlock hmask]; exact mask_block_count_ge data.length)


theorem zip_self_any_bne (l : List Nat) :
    ((l.zip l).any fun p => p.1 != p.2) = false := by
  induction l with
  | nil => rfl
  | cons a as ih => simpa using ih


theorem numFromBytes_natToBytesLE {x : Nat} (hx : x < rFr) :
    numFromBytes (natToBytesLE numSize x) = some x := by
  unfold numFromBytes
  rw [bytesToNatLE_natToBytesLE_of_lt (lt_trans hx rFr_lt_pow)]
  simp [hx]


theorem subgroupDecompress_pointX (p : JubPoint) :
    subgroupDecompress (pointX p) = some p := by
  unfold subgroupDecompress pointX
  rw [if_pos (ZMod.val_lt p), ZMod.natCast_val, ZMod.cast_id]


theorem pointX_lt_rFr (p : JubPoint) : pointX p < rFr :=
  lt_trans (ZMod.val_lt p) (by decide)


/-- C8: encrypting a note addressed to `recipient_dk` (its `pk_d` is the
recipient's diversified key `rdk·H(d)`) with ephemeral scalar `esk` and the
sender's own `dk` produces a message that the sender decrypts via
`note_decrypt_out` with `dk` and the receiver decrypts via `note_decrypt_in`
with `rdk`, both recovering the note. -/
theorem C8_note_encrypt_decrypt_roundtrip (kec : List Nat → List Nat)
    (Hd : Nat → JubPoint) (esk dk dkInv rdk : ZMod qJub) (n : NoteM)
    (hkec : ∀ m, (kec m).length = 32)
    (hd10 : n.d < 256 ^ 10) (hv8 : n.v < 256 ^ 8) (hst10 : n.st < 256 ^ 10)
    (hpk : n.pk_d = pointX (pointMul rdk (Hd n.d)))
    (hdk : dk * dkInv = 1) :
    ∃ msg, note_encrypt kec Hd esk dk dkInv n = some msg
      ∧ note_decrypt_out kec dk msg = some n
      ∧ note_decrypt_in kec rdk msg = some n := by
  have hdlt : n.d < rFr := lt_trans hd10 (by decide)
  have hvlt : n.v < rFr := lt_trans hv8 (by decide)
  have hstlt : n.st < rFr := lt_trans hst10 (by decide)
  have hpklt : n.pk_d < rFr := by
    rw [hpk]
    exact pointX_lt_rFr _
  obtain ⟨nv, hnv, hnvlen, hnvdec⟩ :
      ∃ nv, noteToBytes n = some nv ∧ nv.length = 60 ∧ noteFromBytes nv = some n :=
    ⟨_, noteToBytes_eq_of_ranges n hpklt hd10 hv8 hst10, by simp,
      noteFromBytes_roundtrip n hdlt hpklt hvlt hstlt hd10 hv8 hst10⟩
  have hmask : ∀ i, (dhPrefixMask kec
      (pointX (pointMul esk (pointMul rdk (Hd n.d)))) (kec nv) i).length = 32 :=
    fun _ => hkec _
  have henclen : (xorCrypt (dhPrefixMask kec
      (pointX (pointMul esk (pointMul rdk (Hd n.d)))) (kec nv)) nv).length = 60 := by
    rw [xorCrypt_length _ hmask, hnvlen]
  have henc : note_encrypt kec Hd esk dk dkInv n
      = some (natToBytesLE numSize (pointX (pointMul esk (Hd n.d)))
        ++ (natToBytesLE numSize (pointX (pointMul dkInv (pointMul esk (pointMul rdk (Hd n.d)))))
        ++ (kec nv
        ++ xorCrypt (dhPrefixMask kec
             (pointX (pointMul esk (pointMul rdk (Hd n.d)))) (kec nv)) nv))) := by
    unfold note_encrypt
    rw [hpk, subgroupDecompress_pointX, hnv]
  have hdh : pointMul dk (pointMul dkInv (pointMul esk (pointMul rdk (Hd n.d))))
      = pointMul esk (pointMul rdk (Hd n.d)) := by
    unfold pointMul
    rw [← mul_assoc, hdk, one_mul]
  have hdh2 : pointMul rdk (pointMul esk (Hd n.d))
      = pointMul esk (pointMul rdk (Hd n.d)) := by
    unfold pointMul
    ring
  refine ⟨_, henc, ?_, ?_⟩
  · unfold note_decrypt_out
    rw [if_neg (by simp [hkec, henclen, numSize])]
    rw [List.drop_left' (natToBytesLE_length numSize _),
        List.take_left' (natToBytesLE_length numSize _),
        numFromBytes_natToBytesLE (pointX_lt_rFr _)]
    rw [show (2 * numSize : Nat) = numSize + numSize from rfl, ← List.drop_drop]
    rw [List.drop_left' (natToBytesLE_length numSize _),
        List.drop_left' (natToBytesLE_length numSize _)]
    dsimp only
    unfold note_decrypt
    rw [subgroupDecompress_pointX]
    dsimp only
    rw [List.take_left' (hkec nv), List.drop_left' (hkec nv)]
    rw [hdh, xorCrypt_involutive _ hmask nv, zip_self_any_bne]
    simpa using hnvdec
  · unfold note_decrypt_in
    rw [if_neg (by simp [hkec, henclen, numSize])]
    rw [List.take_left' (natToBytesLE_length numSize _),
        numFromBytes_natToBytesLE (pointX_lt_rFr _)]
    rw [show (2 * numSize : Nat) = numSize + numSize from rfl, ← List.drop_drop]
    rw [List.drop_left' (natToBytesLE_length numSize _),
        List.drop_left' (natToBytesLE_length numSize _)]
    dsimp only
    unfold note_decrypt
    rw [subgroupDecompress_pointX]
    dsimp only
    rw [List.take_left' (hkec nv), List.drop_left' (hkec nv)]
    rw [hdh2, xorCrypt_involutive _ hmask nv, zip_self_any_bne]
    simpa using hnvdec


/-- Witness for C8 with a concrete oracle, keys and note (the note's `pk_d` is
the recipient key `rdk·H(d)` for `rdk = 3`). -/
theorem C8_note_encrypt_decrypt_roundtrip_witness :
    ∃ msg, note_encrypt (fun _ => List.replicate 32 1) (fun _ => (1 : ZMod qJub)) 2 1 1
        ⟨4, pointX (pointMul 3 ((fun _ => (1 : ZMod qJub)) 4)), 5, 6⟩ = some msg
      ∧ note_decrypt_out (fun _ => List.replicate 32 1) 1 msg
          = some ⟨4, pointX (pointMul 3 ((fun _ => (1 : ZMod qJub)) 4)), 5, 6⟩
      ∧ note_decrypt_in (fun _ => List.replicate 32 1) 3 msg
          = some ⟨4, pointX (pointMul 3 ((fun _ => (1 : ZMod qJub)) 4)), 5, 6⟩ :=
  C8_note_encrypt_decrypt_roundtrip (fun _ => List.replicate 32 1)
    (fun _ => (1 : ZMod qJub)) 2 1 1 3
    ⟨4, pointX (pointMul 3 ((fun _ => (1 : ZMod qJub)) 4)), 5, 6⟩
    (fun _ => by simp) (by decide) (by decide) (by decide) rfl (mul_one 1)
